import Mathlib

/-!
# Verification of the transactional key-value store (`src/kvstore.py`, `src/logs.py`)

Shallow embedding of the repository's core in Lean 4.

Modelling conventions:

* Python `dict` objects are embedded as association lists with unique keys
  (`List (String × β)`), with `lookupKV` for `dict.get` / `in`, `kvUpsert` for
  `d[k] = v` (replace-in-place or append) and `kvErase` for `d.pop(k)` / `del`.
* Python `set` objects (the key-sets of the reverse index) are embedded as
  duplicate-free `List String`; `add` appends when absent, `discard` filters.
  Sets are unordered in Python, and nothing observable depends on the order we
  pick: `find` sorts, `counts` takes the size.
* `print(...)` calls are collected in a `List Out` of output events.  The two
  transaction reports interpolate a Python list repr into the message, so they
  are kept as structured events carrying the reported change log; all other
  prints are verbatim `Out.line` strings.
* In the source, `_current_logger` is reassigned at every push and pop so that
  it always aliases the logger of the top stack frame (or `None` on an empty
  stack).  The functional embedding therefore stores each logger inside its
  frame and exposes the active logger as the derived view `currentLog`.
* The transaction stack `_tx_stack` (Python list, `append`/`pop`/`[-1]` at the
  end) is stored top-first: `push` is cons, `pop` takes the head.
-/

/-- `dict.get(k)` / `k in d` on an association list: value at the first
occurrence of key `k`. -/
def lookupKV {β : Type} (k : String) : List (String × β) → Option β
  | [] => none
  | (k', v) :: rest => if k' = k then some v else lookupKV k rest

/-- `d[k] = v`: replace the value at the first occurrence of `k` in place,
or append a fresh entry when `k` is absent. -/
def kvUpsert {β : Type} (k : String) (v : β) : List (String × β) → List (String × β)
  | [] => [(k, v)]
  | (k', v') :: rest => if k' = k then (k, v) :: rest else (k', v') :: kvUpsert k v rest

/-- `d.pop(k)` / `del d[k]`: drop the first occurrence of key `k`. -/
def kvErase {β : Type} (k : String) : List (String × β) → List (String × β)
  | [] => []
  | (k', v') :: rest => if k' = k then rest else (k', v') :: kvErase k rest

/-- The keys of an association list, in order. -/
def keysOf {β : Type} (d : List (String × β)) : List String := d.map Prod.fst

/-- The reverse index `_val_keys`: value → set of keys holding that value. -/
abbrev RevIdx := List (String × List String)

/-- `self._val_keys[old_val].discard(key)` followed by
`if not self._val_keys[old_val]: del self._val_keys[old_val]`.
The `defaultdict` access materialises an empty set for an absent value, the
`discard` removes `key` from it, and the emptiness check deletes the entry when
nothing is left — so an absent entry stays absent, and a present entry either
shrinks or disappears. -/
def revDiscard (v k : String) (r : RevIdx) : RevIdx :=
  let s := (lookupKV v r).getD []
  let t := s.filter (fun x => x ≠ k)
  if t = [] then kvErase v r else kvUpsert v t r

/-- `self._val_keys[value].add(key)`: the `defaultdict` access materialises the
entry for `value` when absent, and `add` inserts `key` if it is not already a
member. -/
def revAdd (v k : String) (r : RevIdx) : RevIdx :=
  let s := (lookupKV v r).getD []
  kvUpsert v (if k ∈ s then s else s ++ [k]) r

/-- `src/logs.py`: `TransactionLogger`, an append-only list of change strings. -/
structure TransactionLogger where
  changes : List String
  deriving DecidableEq, Repr

/-- `TransactionLogger.log`: append one message. -/
def TransactionLogger.log (l : TransactionLogger) (message : String) : TransactionLogger :=
  { changes := l.changes ++ [message] }

/-- `TransactionLogger.get_changes`: the recorded messages (the source returns
a copy; functionally this is the list itself). -/
def TransactionLogger.get_changes (l : TransactionLogger) : List String := l.changes

/-- One element of `_tx_stack`: the pair `(self._snapshot(), logger)` pushed by
`begin` — a deep copy of `_data`, a deep copy of `_val_keys`, and the frame's
logger. -/
structure Frame where
  snapData : List (String × String)
  snapValKeys : RevIdx
  logger : TransactionLogger
  deriving DecidableEq, Repr

/-- One console output event. -/
inductive Out where
  /-- A verbatim `print(s)`. -/
  | line (s : String)
  /-- `print(f"ROLLBACK: Changes reverted. Log: {logger.get_changes()}")` —
  the ROLLBACK report carrying the discarded change log. -/
  | rollbackReport (changes : List String)
  /-- `print(f"COMMIT: Changes applied. Log: {logger.get_changes()}")` —
  the COMMIT report carrying the reported change log. -/
  | commitReport (changes : List String)
  deriving DecidableEq, Repr

/-- The store state of `class KVStore`: primary mapping `_data`, reverse index
`_val_keys`, and the transaction stack `_tx_stack` (top frame first).  The
`_current_logger` field is derived: see `KVStore.currentLog`. -/
structure KVStore where
  data : List (String × String)
  val_keys : RevIdx
  tx_stack : List Frame
  deriving DecidableEq, Repr

/-- `KVStore.__init__`: empty mapping, empty reverse index, empty stack. -/
def KVStore.init : KVStore := ⟨[], [], []⟩

/-- `_current_logger`: always the logger of the top stack frame, `none` when
the stack is empty (the source reassigns it at every push and pop, keeping
exactly this invariant). -/
def KVStore.currentLog (s : KVStore) : Option (List String) :=
  s.tx_stack.head?.map (fun f => f.logger.changes)

/-- `self._current_logger.log(msg)` guarded by `if self._current_logger:` —
appends `msg` to the top frame's logger when a transaction is active. -/
def KVStore.logCurrent (s : KVStore) (msg : String) : KVStore :=
  match s.tx_stack with
  | [] => s
  | f :: rest => { s with tx_stack := { f with logger := f.logger.log msg } :: rest }

/-- `KVStore._snapshot`: a deep copy of `(_data, _val_keys)` (copies of the
dicts and of every key-set; functionally the current pair itself). -/
def KVStore.snapshot (s : KVStore) : List (String × String) × RevIdx :=
  (s.data, s.val_keys)

/-- `KVStore.begin`: create a fresh logger, push `(snapshot, logger)`, make the
new logger current, then `logger.log("BEGIN")` — which, through the alias,
leaves the pushed frame's log at `["BEGIN"]`. -/
def KVStore.begin (s : KVStore) : KVStore :=
  { s with tx_stack := ⟨s.data, s.val_keys, ⟨["BEGIN"]⟩⟩ :: s.tx_stack }

/-- `KVStore.rollback`: on an empty stack print `NO TRANSACTION` and return
`False`; otherwise pop the top frame, restore its snapshot as the live state,
report its change log, re-point the current logger, return `True`.
Result: `(returned bool, outputs, new state)`. -/
def KVStore.rollback (s : KVStore) : Bool × List Out × KVStore :=
  match s.tx_stack with
  | [] => (false, [Out.line "NO TRANSACTION"], s)
  | f :: rest =>
    (true, [Out.rollbackReport f.logger.get_changes],
      { data := f.snapData, val_keys := f.snapValKeys, tx_stack := rest })

/-- `KVStore.commit`: on an empty stack print `NO TRANSACTION` and return
`False`; otherwise pop the top frame without touching `_data`/`_val_keys`,
report its change log, re-point the current logger, return `True`. -/
def KVStore.commit (s : KVStore) : Bool × List Out × KVStore :=
  match s.tx_stack with
  | [] => (false, [Out.line "NO TRANSACTION"], s)
  | f :: rest =>
    (true, [Out.commitReport f.logger.get_changes], { s with tx_stack := rest })

/-- `KVStore.set`: if `key` is present, discard it from the reverse-index entry
of its old value (deleting the entry when emptied); then write `key → value`
into `_data`, add `key` to the entry for `value`, and — when a transaction is
active — log `SET key value` (unconditionally, even if `value` equals the old
value). -/
def KVStore.set (s : KVStore) (key value : String) : KVStore :=
  let r :=
    match lookupKV key s.data with
    | some old_val => revDiscard old_val key s.val_keys
    | none => s.val_keys
  let s' := { s with data := kvUpsert key value s.data, val_keys := revAdd value key r }
  s'.logCurrent ("SET " ++ key ++ " " ++ value)

/-- `KVStore.unset`: if `key` is absent, do nothing (no log entry); otherwise
pop it from `_data`, discard it from the reverse-index entry of its former
value (deleting the entry when emptied), and — when a transaction is active —
log `UNSET key`. -/
def KVStore.unset (s : KVStore) (key : String) : KVStore :=
  match lookupKV key s.data with
  | none => s
  | some old_val =>
    let s' := { s with data := kvErase key s.data, val_keys := revDiscard old_val key s.val_keys }
    s'.logCurrent ("UNSET " ++ key)

/-- `KVStore.get`: `self._data.get(key, "NULL")`. -/
def KVStore.get (s : KVStore) (key : String) : String :=
  (lookupKV key s.data).getD "NULL"

/-- `KVStore.counts`: `len(self._val_keys.get(value, set()))`. -/
def KVStore.counts (s : KVStore) (value : String) : Nat :=
  ((lookupKV value s.val_keys).getD []).length

/-- `KVStore.find`: `sorted(keys) if keys else []` where
`keys = self._val_keys.get(value, set())` — the keys holding `value`, in
ascending lexicographic order. -/
def KVStore.find (s : KVStore) (value : String) : List String :=
  let keys := (lookupKV value s.val_keys).getD []
  if keys = [] then [] else keys.mergeSort (fun a b => decide (a ≤ b))

/-- Python `str.upper()`, used on the command verb.  Modelled as mapping
`Char.toUpper` over the characters — extensionally Lean's `String.toUpper`,
whose `mapAux` implementation does not reduce in the kernel. -/
def pyUpper (s : String) : String := ⟨s.data.map Char.toUpper⟩

/-- `KVStore.process_command parts = (new state, outputs, exit?)`.

Faithful to the source's dispatch: the verb is `parts[0].upper()`; `SET` and
`FIND` go through `_handle_set`/`_handle_find`, which check the argument count
and print `INVALID SET COMMAND` / `INVALID FIND COMMAND` on a mismatch; the
`GET`/`UNSET`/`COUNTS` lambdas read `parts[1]` directly, so a missing argument
raises `IndexError("list index out of range")`, caught by the dispatch
`except` and printed as `ERROR: list index out of range`, while extra
arguments are silently ignored; `END` calls `sys.exit(0)` (`SystemExit` is not
an `Exception`, so it escapes the `except` — modelled as the exit flag);
an unknown verb prints `INVALID COMMAND: <space-joined line>`. -/
def KVStore.process_command (s : KVStore) (parts : List String) :
    KVStore × List Out × Bool :=
  match parts with
  | [] => (s, [], false)
  | w :: args =>
    let cmd := pyUpper w
    if cmd = "SET" then
      match args with
      | [k, v] => (s.set k v, [], false)
      | _ => (s, [Out.line "INVALID SET COMMAND"], false)
    else if cmd = "GET" then
      match args with
      | [] => (s, [Out.line "ERROR: list index out of range"], false)
      | k :: _ => (s, [Out.line (s.get k)], false)
    else if cmd = "UNSET" then
      match args with
      | [] => (s, [Out.line "ERROR: list index out of range"], false)
      | k :: _ => (s.unset k, [], false)
    else if cmd = "COUNTS" then
      match args with
      | [] => (s, [Out.line "ERROR: list index out of range"], false)
      | v :: _ => (s, [Out.line (toString (s.counts v))], false)
    else if cmd = "FIND" then
      match args with
      | [v] =>
        (s, [Out.line (if s.find v = [] then "NONE" else String.intercalate " " (s.find v))],
          false)
      | _ => (s, [Out.line "INVALID FIND COMMAND"], false)
    else if cmd = "BEGIN" then
      (s.begin, [], false)
    else if cmd = "ROLLBACK" then
      ((s.rollback).2.2, (s.rollback).2.1, false)
    else if cmd = "COMMIT" then
      ((s.commit).2.2, (s.commit).2.1, false)
    else if cmd = "END" then
      (s, [], true)
    else
      (s, [Out.line ("INVALID COMMAND: " ++ String.intercalate " " parts)], false)

/-- A `set`/`unset` mutation, as issued between `begin` and `rollback`. -/
inductive Mut where
  | set (k v : String)
  | unset (k : String)
  deriving DecidableEq, Repr

/-- Apply one mutation. -/
def applyMut (s : KVStore) : Mut → KVStore
  | .set k v => s.set k v
  | .unset k => s.unset k

/-- Apply a sequence of mutations in order. -/
def applyMuts (s : KVStore) (muts : List Mut) : KVStore :=
  muts.foldl applyMut s

/-- Any public operation of the engine (the state-changing ones). -/
inductive Op where
  | set (k v : String)
  | unset (k : String)
  | begin
  | commit
  | rollback
  deriving DecidableEq, Repr

/-- Apply one operation (discarding returned booleans and console output). -/
def applyOp (s : KVStore) : Op → KVStore
  | .set k v => s.set k v
  | .unset k => s.unset k
  | .begin => s.begin
  | .commit => (s.commit).2.2
  | .rollback => (s.rollback).2.2

/-- Run a sequence of operations from the freshly initialised store. -/
def runOps (ops : List Op) : KVStore :=
  ops.foldl applyOp KVStore.init

/-! ## Lemmas about the association-list primitives -/

theorem lookupKV_kvUpsert_self {β : Type} (k : String) (v : β) (d : List (String × β)) :
    lookupKV k (kvUpsert k v d) = some v := by
  induction d with
  | nil => simp [kvUpsert, lookupKV]
  | cons p rest ih =>
    obtain ⟨k', v'⟩ := p
    by_cases h : k' = k
    · simp [kvUpsert, lookupKV, h]
    · simp [kvUpsert, lookupKV, h, ih]

theorem lookupKV_kvUpsert_ne {β : Type} {k k' : String} (v : β) (d : List (String × β))
    (h : k' ≠ k) : lookupKV k' (kvUpsert k v d) = lookupKV k' d := by
  have h' : ¬(k = k') := fun hc => h hc.symm
  induction d with
  | nil => simp [kvUpsert, lookupKV, h']
  | cons p rest ih =>
    obtain ⟨k₀, v₀⟩ := p
    by_cases h₀ : k₀ = k
    · subst h₀
      simp [kvUpsert, lookupKV, h']
    · simp [kvUpsert, lookupKV, h₀, ih]

theorem kvErase_sublist {β : Type} (k : String) (d : List (String × β)) :
    (kvErase k d).Sublist d := by
  induction d with
  | nil => simp [kvErase]
  | cons p rest ih =>
    obtain ⟨k₀, v₀⟩ := p
    by_cases h₀ : k₀ = k
    · simp only [kvErase, if_pos h₀]
      exact List.sublist_cons_self _ _
    · simp only [kvErase, if_neg h₀]
      exact List.Sublist.cons₂ _ ih

theorem lookupKV_kvErase_ne {β : Type} {k k' : String} (d : List (String × β))
    (h : k' ≠ k) : lookupKV k' (kvErase k d) = lookupKV k' d := by
  have h' : ¬(k = k') := fun hc => h hc.symm
  induction d with
  | nil => simp [kvErase]
  | cons p rest ih =>
    obtain ⟨k₀, v₀⟩ := p
    by_cases h₀ : k₀ = k
    · subst h₀
      simp [kvErase, lookupKV, h']
    · simp [kvErase, lookupKV, h₀, ih]

theorem lookupKV_eq_none_iff {β : Type} (k : String) (d : List (String × β)) :
    lookupKV k d = none ↔ k ∉ keysOf d := by
  induction d with
  | nil => simp [lookupKV, keysOf]
  | cons p rest ih =>
    obtain ⟨k₀, v₀⟩ := p
    by_cases h₀ : k₀ = k
    · simp [lookupKV, keysOf, h₀]
    · have h₁ : ¬(k = k₀) := fun hc => h₀ hc.symm
      simp [lookupKV, keysOf, h₀, h₁, ih]

theorem lookupKV_isSome_iff {β : Type} (k : String) (d : List (String × β)) :
    (∃ v, lookupKV k d = some v) ↔ k ∈ keysOf d := by
  rcases hl : lookupKV k d with _ | v
  · rw [lookupKV_eq_none_iff] at hl
    simp only [hl, iff_false]
    rintro ⟨v, hv⟩
    cases hv
  · constructor
    · intro _
      by_contra hk
      rw [← lookupKV_eq_none_iff] at hk
      rw [hl] at hk
      simp at hk
    · intro _
      exact ⟨v, rfl⟩

theorem keysOf_kvUpsert {β : Type} (k : String) (v : β) (d : List (String × β)) :
    keysOf (kvUpsert k v d) = if k ∈ keysOf d then keysOf d else keysOf d ++ [k] := by
  induction d with
  | nil => simp [kvUpsert, keysOf]
  | cons p rest ih =>
    obtain ⟨k₀, v₀⟩ := p
    by_cases h₀ : k₀ = k
    · simp [kvUpsert, keysOf, h₀]
    · have h₁ : ¬(k = k₀) := fun hc => h₀ hc.symm
      simp only [kvUpsert, if_neg h₀, keysOf, List.map_cons] at ih ⊢
      rw [ih]
      by_cases hk : k ∈ List.map Prod.fst rest
      · simp [hk, h₁]
      · simp [hk, h₁]

theorem nodup_keysOf_kvUpsert {β : Type} (k : String) (v : β) {d : List (String × β)}
    (h : (keysOf d).Nodup) : (keysOf (kvUpsert k v d)).Nodup := by
  rw [keysOf_kvUpsert]
  by_cases hk : k ∈ keysOf d
  · simpa [hk] using h
  · simp only [if_neg hk]
    simpa [List.nodup_append, hk] using h

theorem nodup_keysOf_kvErase {β : Type} (k : String) {d : List (String × β)}
    (h : (keysOf d).Nodup) : (keysOf (kvErase k d)).Nodup :=
  ((kvErase_sublist k d).map Prod.fst).nodup h

theorem lookupKV_kvErase_self {β : Type} (k : String) {d : List (String × β)}
    (h : (keysOf d).Nodup) : lookupKV k (kvErase k d) = none := by
  induction d with
  | nil => simp [kvErase, lookupKV]
  | cons p rest ih =>
    obtain ⟨k₀, v₀⟩ := p
    simp only [keysOf, List.map_cons, List.nodup_cons] at h
    by_cases h₀ : k₀ = k
    · subst h₀
      simp only [kvErase, if_pos rfl]
      rw [lookupKV_eq_none_iff]
      exact fun hk => h.1 hk
    · simpa [kvErase, lookupKV, h₀] using ih h.2

theorem lookupKV_eq_none_of_sublist {β : Type} {k : String} {d d' : List (String × β)}
    (hs : d'.Sublist d) (h : lookupKV k d = none) : lookupKV k d' = none := by
  rw [lookupKV_eq_none_iff] at h ⊢
  exact fun hk => h ((hs.map Prod.fst).mem hk)

theorem mem_kvUpsert {β : Type} {p : String × β} {k : String} {v : β} {d : List (String × β)}
    (h : p ∈ kvUpsert k v d) : p = (k, v) ∨ p ∈ d := by
  induction d with
  | nil => simpa [kvUpsert] using h
  | cons q rest ih =>
    obtain ⟨k₀, v₀⟩ := q
    by_cases h₀ : k₀ = k
    · simp only [kvUpsert, if_pos h₀, List.mem_cons] at h
      rcases h with h | h
      · exact Or.inl h
      · exact Or.inr (List.mem_cons_of_mem _ h)
    · simp only [kvUpsert, if_neg h₀, List.mem_cons] at h
      rcases h with h | h
      · exact Or.inr (by simp [h])
      · rcases ih h with h' | h'
        · exact Or.inl h'
        · exact Or.inr (List.mem_cons_of_mem _ h')

theorem lookupKV_eq_some_iff_mem {β : Type} {k : String} {v : β} {d : List (String × β)}
    (h : (keysOf d).Nodup) : lookupKV k d = some v ↔ (k, v) ∈ d := by
  induction d with
  | nil => simp [lookupKV]
  | cons p rest ih =>
    obtain ⟨k₀, v₀⟩ := p
    simp only [keysOf, List.map_cons, List.nodup_cons] at h
    by_cases h₀ : k₀ = k
    · subst h₀
      simp only [lookupKV, if_pos rfl, eq_self_iff_true, if_true, List.mem_cons,
        Option.some_inj, Prod.mk.injEq, true_and]
      constructor
      · intro hv
        exact Or.inl hv.symm
      · intro hv
        rcases hv with hv | hv
        · exact hv.symm
        · exact absurd (List.mem_map_of_mem Prod.fst hv) h.1
    · simp only [lookupKV, if_neg h₀, List.mem_cons, ih h.2, Prod.mk.injEq]
      constructor
      · exact fun hv => Or.inr hv
      · intro hv
        rcases hv with ⟨hv, _⟩ | hv
        · exact absurd hv.symm h₀
        · exact hv

/-! ## Membership in the reverse index -/

/-- `k` is a member of the reverse-index entry for `v`. -/
def memRev (k v : String) (r : RevIdx) : Prop :=
  ∃ l, lookupKV v r = some l ∧ k ∈ l

theorem mem_getD_iff_memRev {k v : String} {r : RevIdx} :
    k ∈ (lookupKV v r).getD [] ↔ memRev k v r := by
  rcases hl : lookupKV v r with _ | l
  · simp [memRev, hl]
  · simp [memRev, hl]

theorem lookupKV_revAdd_self (v k : String) (r : RevIdx) :
    lookupKV v (revAdd v k r) =
      some (if k ∈ (lookupKV v r).getD [] then (lookupKV v r).getD []
            else (lookupKV v r).getD [] ++ [k]) := by
  simp only [revAdd]
  exact lookupKV_kvUpsert_self _ _ _

theorem lookupKV_revAdd_ne {v' v : String} (k : String) (r : RevIdx) (h : v' ≠ v) :
    lookupKV v' (revAdd v k r) = lookupKV v' r := by
  simp only [revAdd]
  exact lookupKV_kvUpsert_ne _ _ h

theorem lookupKV_revDiscard_self {v k : String} {r : RevIdx} (hr : (keysOf r).Nodup) :
    lookupKV v (revDiscard v k r) =
      if ((lookupKV v r).getD []).filter (fun x => x ≠ k) = [] then none
      else some (((lookupKV v r).getD []).filter (fun x => x ≠ k)) := by
  by_cases ht : ((lookupKV v r).getD []).filter (fun x => x ≠ k) = []
  · rw [if_pos ht]
    simp only [revDiscard, if_pos ht]
    exact lookupKV_kvErase_self v hr
  · rw [if_neg ht]
    simp only [revDiscard, if_neg ht]
    exact lookupKV_kvUpsert_self _ _ _

theorem lookupKV_revDiscard_ne {v' v : String} (k : String) (r : RevIdx) (h : v' ≠ v) :
    lookupKV v' (revDiscard v k r) = lookupKV v' r := by
  by_cases ht : ((lookupKV v r).getD []).filter (fun x => x ≠ k) = []
  · simp only [revDiscard, if_pos ht]
    exact lookupKV_kvErase_ne r h
  · simp only [revDiscard, if_neg ht]
    exact lookupKV_kvUpsert_ne _ _ h

theorem memRev_revAdd_self {k' v k : String} {r : RevIdx} :
    memRev k' v (revAdd v k r) ↔ k' = k ∨ memRev k' v r := by
  unfold memRev
  rw [lookupKV_revAdd_self]
  constructor
  · rintro ⟨l, hl, hk⟩
    obtain rfl : _ = l := by injection hl
    by_cases hks : k ∈ (lookupKV v r).getD []
    · rw [if_pos hks] at hk
      exact Or.inr (mem_getD_iff_memRev.mp hk)
    · rw [if_neg hks] at hk
      rcases List.mem_append.mp hk with hk | hk
      · exact Or.inr (mem_getD_iff_memRev.mp hk)
      · exact Or.inl (List.mem_singleton.mp hk)
  · intro h
    refine ⟨_, rfl, ?_⟩
    by_cases hks : k ∈ (lookupKV v r).getD []
    · rw [if_pos hks]
      rcases h with rfl | h
      · exact hks
      · exact mem_getD_iff_memRev.mpr h
    · rw [if_neg hks]
      rcases h with rfl | h
      · exact List.mem_append.mpr (Or.inr (List.mem_singleton.mpr rfl))
      · exact List.mem_append.mpr (Or.inl (mem_getD_iff_memRev.mpr h))

theorem memRev_revAdd_ne {k' v' v k : String} {r : RevIdx} (h : v' ≠ v) :
    memRev k' v' (revAdd v k r) ↔ memRev k' v' r := by
  unfold memRev
  rw [lookupKV_revAdd_ne k r h]

theorem memRev_revDiscard_self {k' v k : String} {r : RevIdx} (hr : (keysOf r).Nodup) :
    memRev k' v (revDiscard v k r) ↔ memRev k' v r ∧ k' ≠ k := by
  unfold memRev
  rw [lookupKV_revDiscard_self hr]
  by_cases ht : ((lookupKV v r).getD []).filter (fun x => x ≠ k) = []
  · rw [if_pos ht]
    constructor
    · rintro ⟨l, hl, -⟩
      cases hl
    · rintro ⟨⟨l, hl, hk⟩, hne⟩
      have hmem : k' ∈ ((lookupKV v r).getD []).filter (fun x => x ≠ k) := by
        rw [hl]
        simp only [Option.getD_some, List.mem_filter, decide_eq_true_eq]
        exact ⟨hk, hne⟩
      rw [ht] at hmem
      cases hmem
  · rw [if_neg ht]
    have hs : ∃ l, lookupKV v r = some l := by
      rcases hl : lookupKV v r with _ | l
      · rw [hl] at ht
        simp at ht
      · exact ⟨l, rfl⟩
    obtain ⟨s, hs⟩ := hs
    rw [hs]
    simp only [Option.getD_some, Option.some_inj]
    constructor
    · rintro ⟨l, rfl, hk⟩
      simp only [List.mem_filter, decide_eq_true_eq] at hk
      exact ⟨⟨s, rfl, hk.1⟩, hk.2⟩
    · rintro ⟨⟨l, hl, hk⟩, hne⟩
      subst hl
      refine ⟨_, rfl, ?_⟩
      simp only [List.mem_filter, decide_eq_true_eq]
      exact ⟨hk, hne⟩

theorem memRev_revDiscard_ne {k' v' v k : String} {r : RevIdx} (h : v' ≠ v) :
    memRev k' v' (revDiscard v k r) ↔ memRev k' v' r := by
  unfold memRev
  rw [lookupKV_revDiscard_ne k r h]

/-! ## The store invariant -/

/-- Well-formedness of a (primary mapping, reverse index) pair, as maintained
by the engine: both dicts have unique keys, every reverse-index entry is a
duplicate-free non-empty key-set, and a key lies in the entry for a value
exactly when the primary mapping currently binds it to that value. -/
structure WfPair (d : List (String × String)) (r : RevIdx) : Prop where
  nodupData : (keysOf d).Nodup
  nodupRev : (keysOf r).Nodup
  entries : ∀ p ∈ r, p.2.Nodup ∧ p.2 ≠ []
  rel : ∀ k v, lookupKV k d = some v ↔ memRev k v r

theorem WfPair.init : WfPair [] [] := by
  refine ⟨List.nodup_nil, List.nodup_nil, by simp, ?_⟩
  intro k v
  simp [lookupKV, memRev]

theorem nodup_keysOf_revAdd {v k : String} {r : RevIdx} (hr : (keysOf r).Nodup) :
    (keysOf (revAdd v k r)).Nodup := by
  simp only [revAdd]
  exact nodup_keysOf_kvUpsert _ _ hr

theorem nodup_keysOf_revDiscard {v k : String} {r : RevIdx} (hr : (keysOf r).Nodup) :
    (keysOf (revDiscard v k r)).Nodup := by
  by_cases ht : ((lookupKV v r).getD []).filter (fun x => x ≠ k) = []
  · simp only [revDiscard, if_pos ht]
    exact nodup_keysOf_kvErase _ hr
  · simp only [revDiscard, if_neg ht]
    exact nodup_keysOf_kvUpsert _ _ hr

theorem getD_nodup {v : String} {r : RevIdx} (hr : (keysOf r).Nodup)
    (he : ∀ p ∈ r, p.2.Nodup ∧ p.2 ≠ []) : ((lookupKV v r).getD []).Nodup := by
  rcases hl : lookupKV v r with _ | s
  · simp
  · have hmem : (v, s) ∈ r := (lookupKV_eq_some_iff_mem hr).mp hl
    simpa using (he _ hmem).1

theorem entries_revDiscard {v k : String} {r : RevIdx} (hr : (keysOf r).Nodup)
    (he : ∀ p ∈ r, p.2.Nodup ∧ p.2 ≠ []) :
    ∀ p ∈ revDiscard v k r, p.2.Nodup ∧ p.2 ≠ [] := by
  intro p hp
  by_cases ht : ((lookupKV v r).getD []).filter (fun x => x ≠ k) = []
  · simp only [revDiscard, if_pos ht] at hp
    exact he p ((kvErase_sublist v r).subset hp)
  · simp only [revDiscard, if_neg ht] at hp
    rcases mem_kvUpsert hp with rfl | hp
    · exact ⟨(getD_nodup hr he).filter _, ht⟩
    · exact he p hp

theorem entries_revAdd {v k : String} {r : RevIdx} (hr : (keysOf r).Nodup)
    (he : ∀ p ∈ r, p.2.Nodup ∧ p.2 ≠ []) :
    ∀ p ∈ revAdd v k r, p.2.Nodup ∧ p.2 ≠ [] := by
  intro p hp
  simp only [revAdd] at hp
  rcases mem_kvUpsert hp with rfl | hp
  · refine ⟨?_, ?_⟩
    · by_cases hks : k ∈ (lookupKV v r).getD []
      · simpa [if_pos hks] using getD_nodup hr he
      · simp only [if_neg hks]
        simpa [List.nodup_append, hks] using getD_nodup hr he
    · intro hc
      have hc2 : (if k ∈ (lookupKV v r).getD [] then (lookupKV v r).getD []
          else (lookupKV v r).getD [] ++ [k]) = [] := hc
      by_cases hks : k ∈ (lookupKV v r).getD []
      · rw [if_pos hks] at hc2
        rw [hc2] at hks
        cases hks
      · rw [if_neg hks] at hc2
        simp at hc2
  · exact he p hp

theorem memRev_revDiscard_iff {k' v' old k : String} {r : RevIdx}
    (hr : (keysOf r).Nodup) :
    memRev k' v' (revDiscard old k r) ↔ memRev k' v' r ∧ ¬(v' = old ∧ k' = k) := by
  by_cases hv' : v' = old
  · subst hv'
    rw [memRev_revDiscard_self hr]
    simp
  · rw [memRev_revDiscard_ne hv']
    simp [hv']

/-- Core preservation: one `set` keeps the pair well-formed.  The second
component is exactly `(s.set k v).val_keys` (see `set_val_keys`). -/
theorem WfPair.set {d : List (String × String)} {r : RevIdx} (h : WfPair d r)
    (k v : String) :
    WfPair (kvUpsert k v d)
      (revAdd v k (match lookupKV k d with
                   | some old_val => revDiscard old_val k r
                   | none => r)) := by
  rcases hl : lookupKV k d with _ | old
  · refine ⟨nodup_keysOf_kvUpsert _ _ h.nodupData, nodup_keysOf_revAdd h.nodupRev,
      entries_revAdd h.nodupRev h.entries, ?_⟩
    intro k' v'
    by_cases hk' : k' = k
    · subst hk'
      rw [lookupKV_kvUpsert_self]
      by_cases hv' : v' = v
      · subst hv'
        simp [memRev_revAdd_self]
      · constructor
        · intro hsome
          injection hsome with hv
          exact absurd hv.symm hv'
        · intro hmr
          exfalso
          have hm := (memRev_revAdd_ne hv').mp hmr
          have := (h.rel k' v').mpr hm
          rw [hl] at this
          cases this
    · rw [lookupKV_kvUpsert_ne _ _ hk']
      by_cases hv' : v' = v
      · subst hv'
        rw [memRev_revAdd_self]
        simp only [hk', false_or]
        exact h.rel k' v'
      · rw [memRev_revAdd_ne hv']
        exact h.rel k' v'
  · have hr₁ : (keysOf (revDiscard old k r)).Nodup := nodup_keysOf_revDiscard h.nodupRev
    refine ⟨nodup_keysOf_kvUpsert _ _ h.nodupData, nodup_keysOf_revAdd hr₁,
      entries_revAdd hr₁ (entries_revDiscard h.nodupRev h.entries), ?_⟩
    intro k' v'
    by_cases hk' : k' = k
    · subst hk'
      rw [lookupKV_kvUpsert_self]
      by_cases hv' : v' = v
      · subst hv'
        simp [memRev_revAdd_self]
      · constructor
        · intro hsome
          injection hsome with hv
          exact absurd hv.symm hv'
        · intro hmr
          exfalso
          have hm := (memRev_revAdd_ne hv').mp hmr
          have hm' := (memRev_revDiscard_iff h.nodupRev).mp hm
          have heq := (h.rel k' v').mpr hm'.1
          rw [hl] at heq
          obtain rfl : old = v' := by injection heq
          exact hm'.2 ⟨rfl, rfl⟩
    · rw [lookupKV_kvUpsert_ne _ _ hk']
      by_cases hv' : v' = v
      · subst hv'
        rw [memRev_revAdd_self, memRev_revDiscard_iff h.nodupRev]
        simp only [hk', and_false, not_false_iff, and_true, false_or]
        exact h.rel k' _
      · rw [memRev_revAdd_ne hv', memRev_revDiscard_iff h.nodupRev]
        simp only [hk', and_false, not_false_iff, and_true]
        exact h.rel k' v'

/-- Core preservation: one `unset` of a present key keeps the pair
well-formed. -/
theorem WfPair.unset {d : List (String × String)} {r : RevIdx} (h : WfPair d r)
    {k old : String} (hl : lookupKV k d = some old) :
    WfPair (kvErase k d) (revDiscard old k r) := by
  refine ⟨nodup_keysOf_kvErase _ h.nodupData, nodup_keysOf_revDiscard h.nodupRev,
    entries_revDiscard h.nodupRev h.entries, ?_⟩
  intro k' v'
  by_cases hk' : k' = k
  · subst hk'
    rw [lookupKV_kvErase_self _ h.nodupData, memRev_revDiscard_iff h.nodupRev]
    constructor
    · intro hc
      cases hc
    · rintro ⟨hm, hneg⟩
      exfalso
      have heq := (h.rel k' v').mpr hm
      rw [hl] at heq
      obtain rfl : old = v' := by injection heq
      exact hneg ⟨rfl, rfl⟩
  · rw [lookupKV_kvErase_ne _ hk', memRev_revDiscard_iff h.nodupRev]
    simp only [hk', and_false, not_false_iff, and_true]
    exact h.rel k' v'

/-! ## Lifting the invariant to the full engine state -/

/-- The snapshots held by the transaction stack, top first. -/
def snapsOf (s : KVStore) : List (List (String × String) × RevIdx) :=
  s.tx_stack.map (fun f => (f.snapData, f.snapValKeys))

theorem logCurrent_data (s : KVStore) (msg : String) :
    (s.logCurrent msg).data = s.data := by
  rcases s with ⟨d, r, stk⟩
  cases stk <;> rfl

theorem logCurrent_val_keys (s : KVStore) (msg : String) :
    (s.logCurrent msg).val_keys = s.val_keys := by
  rcases s with ⟨d, r, stk⟩
  cases stk <;> rfl

theorem logCurrent_snapsOf (s : KVStore) (msg : String) :
    snapsOf (s.logCurrent msg) = snapsOf s := by
  rcases s with ⟨d, r, stk⟩
  cases stk <;> rfl

theorem set_data (s : KVStore) (k v : String) :
    (s.set k v).data = kvUpsert k v s.data := by
  simp only [KVStore.set]
  rw [logCurrent_data]

theorem set_val_keys (s : KVStore) (k v : String) :
    (s.set k v).val_keys =
      revAdd v k (match lookupKV k s.data with
                  | some old_val => revDiscard old_val k s.val_keys
                  | none => s.val_keys) := by
  simp only [KVStore.set]
  rw [logCurrent_val_keys]

theorem set_snapsOf (s : KVStore) (k v : String) :
    snapsOf (s.set k v) = snapsOf s := by
  simp only [KVStore.set]
  rw [logCurrent_snapsOf]
  rfl

theorem unset_of_none {s : KVStore} {k : String} (h : lookupKV k s.data = none) :
    s.unset k = s := by
  simp only [KVStore.unset, h]

theorem unset_data_of_some {s : KVStore} {k old : String}
    (h : lookupKV k s.data = some old) : (s.unset k).data = kvErase k s.data := by
  simp only [KVStore.unset, h]
  rw [logCurrent_data]

theorem unset_val_keys_of_some {s : KVStore} {k old : String}
    (h : lookupKV k s.data = some old) :
    (s.unset k).val_keys = revDiscard old k s.val_keys := by
  simp only [KVStore.unset, h]
  rw [logCurrent_val_keys]

theorem unset_snapsOf (s : KVStore) (k : String) :
    snapsOf (s.unset k) = snapsOf s := by
  rcases h : lookupKV k s.data with _ | old
  · rw [unset_of_none h]
  · simp only [KVStore.unset, h]
    rw [logCurrent_snapsOf]
    rfl

/-- The engine invariant: the live pair is well-formed, and so is every
snapshot on the transaction stack. -/
def KVStore.Wf (s : KVStore) : Prop :=
  WfPair s.data s.val_keys ∧ ∀ p ∈ snapsOf s, WfPair p.1 p.2

theorem Wf_init : KVStore.Wf KVStore.init :=
  ⟨WfPair.init, by intro p hp; cases hp⟩

theorem Wf_set {s : KVStore} (h : s.Wf) (k v : String) : (s.set k v).Wf := by
  constructor
  · rw [set_data, set_val_keys]
    exact h.1.set k v
  · rw [set_snapsOf]
    exact h.2

theorem Wf_unset {s : KVStore} (h : s.Wf) (k : String) : (s.unset k).Wf := by
  rcases hl : lookupKV k s.data with _ | old
  · rw [unset_of_none hl]
    exact h
  · constructor
    · rw [unset_data_of_some hl, unset_val_keys_of_some hl]
      exact h.1.unset hl
    · rw [unset_snapsOf]
      exact h.2

theorem Wf_begin {s : KVStore} (h : s.Wf) : s.begin.Wf := by
  constructor
  · exact h.1
  · intro p hp
    simp only [snapsOf, KVStore.begin, List.map_cons, List.mem_cons] at hp
    rcases hp with rfl | hp
    · exact h.1
    · exact h.2 p hp

theorem Wf_commit {s : KVStore} (h : s.Wf) : (s.commit).2.2.Wf := by
  rcases hstk : s.tx_stack with _ | ⟨f, rest⟩
  · rcases s with ⟨d, r, stk⟩
    simp only at hstk
    subst hstk
    exact h
  · rcases s with ⟨d, r, stk⟩
    simp only at hstk
    subst hstk
    refine ⟨h.1, ?_⟩
    intro p hp
    exact h.2 p (List.mem_cons_of_mem _ hp)

theorem Wf_rollback {s : KVStore} (h : s.Wf) : (s.rollback).2.2.Wf := by
  rcases hstk : s.tx_stack with _ | ⟨f, rest⟩
  · rcases s with ⟨d, r, stk⟩
    simp only at hstk
    subst hstk
    exact h
  · rcases s with ⟨d, r, stk⟩
    simp only at hstk
    subst hstk
    constructor
    · exact h.2 (f.snapData, f.snapValKeys) (by simp [snapsOf])
    · intro p hp
      exact h.2 p (List.mem_cons_of_mem _ hp)

theorem Wf_applyOp {s : KVStore} (h : s.Wf) (o : Op) : (applyOp s o).Wf := by
  cases o with
  | set k v => exact Wf_set h k v
  | unset k => exact Wf_unset h k
  | begin => exact Wf_begin h
  | commit => exact Wf_commit h
  | rollback => exact Wf_rollback h

theorem Wf_foldl {s : KVStore} (h : s.Wf) (ops : List Op) :
    (ops.foldl applyOp s).Wf := by
  induction ops generalizing s with
  | nil => exact h
  | cons o rest ih => exact ih (Wf_applyOp h o)

theorem Wf_runOps (ops : List Op) : (runOps ops).Wf :=
  Wf_foldl Wf_init ops

/-! ## Shape of the transaction stack under mutations -/

theorem logCurrent_tx_tail (s : KVStore) (msg : String) :
    (s.logCurrent msg).tx_stack.tail = s.tx_stack.tail := by
  rcases s with ⟨d, r, stk⟩
  cases stk <;> rfl

theorem logCurrent_tx_headSnap (s : KVStore) (msg : String) :
    ((s.logCurrent msg).tx_stack.head?.map (fun f => (f.snapData, f.snapValKeys))) =
      (s.tx_stack.head?.map (fun f => (f.snapData, f.snapValKeys))) := by
  rcases s with ⟨d, r, stk⟩
  cases stk <;> rfl

theorem set_tx_tail (s : KVStore) (k v : String) :
    (s.set k v).tx_stack.tail = s.tx_stack.tail := by
  simp only [KVStore.set]
  rw [logCurrent_tx_tail]

theorem set_tx_headSnap (s : KVStore) (k v : String) :
    ((s.set k v).tx_stack.head?.map (fun f => (f.snapData, f.snapValKeys))) =
      (s.tx_stack.head?.map (fun f => (f.snapData, f.snapValKeys))) := by
  simp only [KVStore.set]
  rw [logCurrent_tx_headSnap]

theorem unset_tx_tail (s : KVStore) (k : String) :
    (s.unset k).tx_stack.tail = s.tx_stack.tail := by
  rcases h : lookupKV k s.data with _ | old
  · rw [unset_of_none h]
  · simp only [KVStore.unset, h]
    rw [logCurrent_tx_tail]

theorem unset_tx_headSnap (s : KVStore) (k : String) :
    ((s.unset k).tx_stack.head?.map (fun f => (f.snapData, f.snapValKeys))) =
      (s.tx_stack.head?.map (fun f => (f.snapData, f.snapValKeys))) := by
  rcases h : lookupKV k s.data with _ | old
  · rw [unset_of_none h]
  · simp only [KVStore.unset, h]
    rw [logCurrent_tx_headSnap]

theorem applyMut_tx_tail (s : KVStore) (m : Mut) :
    (applyMut s m).tx_stack.tail = s.tx_stack.tail := by
  cases m with
  | set k v => exact set_tx_tail s k v
  | unset k => exact unset_tx_tail s k

theorem applyMut_tx_headSnap (s : KVStore) (m : Mut) :
    ((applyMut s m).tx_stack.head?.map (fun f => (f.snapData, f.snapValKeys))) =
      (s.tx_stack.head?.map (fun f => (f.snapData, f.snapValKeys))) := by
  cases m with
  | set k v => exact set_tx_headSnap s k v
  | unset k => exact unset_tx_headSnap s k

theorem applyMuts_tx_tail (muts : List Mut) (s : KVStore) :
    (applyMuts s muts).tx_stack.tail = s.tx_stack.tail := by
  induction muts generalizing s with
  | nil => rfl
  | cons m rest ih =>
    simp only [applyMuts, List.foldl_cons] at ih ⊢
    rw [ih (applyMut s m), applyMut_tx_tail]

theorem applyMuts_tx_headSnap (muts : List Mut) (s : KVStore) :
    ((applyMuts s muts).tx_stack.head?.map (fun f => (f.snapData, f.snapValKeys))) =
      (s.tx_stack.head?.map (fun f => (f.snapData, f.snapValKeys))) := by
  induction muts generalizing s with
  | nil => rfl
  | cons m rest ih =>
    simp only [applyMuts, List.foldl_cons] at ih ⊢
    rw [ih (applyMut s m), applyMut_tx_headSnap]

/-! ## Claim theorems -/

/-- C1: for every starting state and every sequence of `set`/`unset` mutations
performed between a `begin()` and the matching `rollback()`, the rollback
succeeds and returns the engine to the exact state — Primary Mapping and
Reverse Index, deep-equal — it had immediately before that `begin()`. -/
theorem C1_rollback_undoes_mutations (s : KVStore) (muts : List Mut) :
    ((applyMuts s.begin muts).rollback).1 = true
  ∧ ((applyMuts s.begin muts).rollback).2.2.data = s.data
  ∧ ((applyMuts s.begin muts).rollback).2.2.val_keys = s.val_keys := by
  have htail := applyMuts_tx_tail muts s.begin
  have hhead := applyMuts_tx_headSnap muts s.begin
  rcases hstk : (applyMuts s.begin muts).tx_stack with _ | ⟨f, rest⟩
  · rw [hstk] at hhead
    simp [KVStore.begin] at hhead
  · rw [hstk] at hhead htail
    simp only [KVStore.begin, List.head?_cons, Option.map_some] at hhead
    obtain ⟨hfd, hfr⟩ : f.snapData = s.data ∧ f.snapValKeys = s.val_keys := by
      have := hhead
      injection this with h'
      exact ⟨congrArg Prod.fst h', congrArg Prod.snd h'⟩
    simp only [KVStore.rollback, hstk]
    refine ⟨?_, hfd, hfr⟩
    trivial

/-- C3: in the trace `set(a,"foo"); begin; set(a,"bar"); begin; set(a,"baz");
commit`, `get(a)` returns `"baz"`, and after a further `rollback`, `get(a)`
returns `"foo"` — the outer rollback also discards the nested frame's
committed mutations. -/
theorem C3_nested_commit_then_rollback :
    ((((((KVStore.init.set "a" "foo").begin).set "a" "bar").begin).set
        "a" "baz").commit).2.2.get "a" = "baz"
  ∧ (((((((KVStore.init.set "a" "foo").begin).set "a" "bar").begin).set
        "a" "baz").commit).2.2.rollback).2.2.get "a" = "foo" := by
  decide

/-- C4: with an empty transaction stack, both `rollback()` and `commit()`
print `NO TRANSACTION`, return `False` (no exception is modelled — the
functions are total), and return the state unchanged (so the Primary Mapping,
Reverse Index, transaction stack and the derived active logger are all
untouched). -/
theorem C4_empty_stack_noop (s : KVStore) (h : s.tx_stack = []) :
    s.rollback = (false, [Out.line "NO TRANSACTION"], s)
  ∧ s.commit = (false, [Out.line "NO TRANSACTION"], s) := by
  rcases s with ⟨d, r, stk⟩
  simp only at h
  subst h
  exact ⟨rfl, rfl⟩

/-- Witness for C4 at the freshly initialised store. -/
theorem C4_empty_stack_noop_witness :
    KVStore.init.rollback = (false, [Out.line "NO TRANSACTION"], KVStore.init)
  ∧ KVStore.init.commit = (false, [Out.line "NO TRANSACTION"], KVStore.init) :=
  C4_empty_stack_noop KVStore.init rfl

/-! ## Keys that were never set -/

theorem commit_data (s : KVStore) : (s.commit).2.2.data = s.data := by
  rcases s with ⟨d, r, stk⟩
  cases stk <;> rfl

theorem commit_val_keys (s : KVStore) : (s.commit).2.2.val_keys = s.val_keys := by
  rcases s with ⟨d, r, stk⟩
  cases stk <;> rfl

theorem commit_snapsOf (s : KVStore) : snapsOf (s.commit).2.2 = (snapsOf s).tail := by
  rcases s with ⟨d, r, stk⟩
  cases stk <;> rfl

/-- `k` is absent from the live mapping and from every stacked snapshot —
the state of a key that was never `set`. -/
def KeyFree (k : String) (s : KVStore) : Prop :=
  lookupKV k s.data = none ∧ ∀ p ∈ snapsOf s, lookupKV k p.1 = none

theorem KeyFree_init (k : String) : KeyFree k KVStore.init :=
  ⟨rfl, by intro p hp; cases hp⟩

theorem KeyFree_applyOp {k : String} {s : KVStore} (h : KeyFree k s) {o : Op}
    (ho : ∀ v', o ≠ Op.set k v') : KeyFree k (applyOp s o) := by
  cases o with
  | set k₂ v =>
    have hne : ¬(k = k₂) := by
      intro hc
      subst hc
      exact (ho v) rfl
    constructor
    · show lookupKV k (s.set k₂ v).data = none
      rw [set_data, lookupKV_kvUpsert_ne _ _ hne, h.1]
    · show ∀ p ∈ snapsOf (s.set k₂ v), lookupKV k p.1 = none
      rw [set_snapsOf]
      exact h.2
  | unset k₂ =>
    show KeyFree k (s.unset k₂)
    rcases hl : lookupKV k₂ s.data with _ | old
    · rw [unset_of_none hl]
      exact h
    · constructor
      · rw [unset_data_of_some hl]
        exact lookupKV_eq_none_of_sublist (kvErase_sublist k₂ s.data) h.1
      · rw [unset_snapsOf]
        exact h.2
  | begin =>
    show KeyFree k s.begin
    constructor
    · exact h.1
    · intro p hp
      simp only [snapsOf, KVStore.begin, List.map_cons, List.mem_cons] at hp
      rcases hp with rfl | hp
      · exact h.1
      · exact h.2 p hp
  | commit =>
    show KeyFree k (s.commit).2.2
    constructor
    · rw [commit_data]
      exact h.1
    · intro p hp
      rw [commit_snapsOf] at hp
      exact h.2 p (List.mem_of_mem_tail hp)
  | rollback =>
    rcases s with ⟨d, r, stk⟩
    cases stk with
    | nil => exact h
    | cons f rest =>
      constructor
      · exact h.2 (f.snapData, f.snapValKeys) (by simp [snapsOf])
      · intro p hp
        exact h.2 p (List.mem_cons_of_mem _ hp)

theorem KeyFree_foldl {k : String} {s : KVStore} (hs : KeyFree k s) (ops : List Op)
    (h : ∀ v', Op.set k v' ∉ ops) : KeyFree k (ops.foldl applyOp s) := by
  induction ops generalizing s with
  | nil => exact hs
  | cons o rest ih =>
    have ho : ∀ v', o ≠ Op.set k v' := fun v' hc => h v' (by rw [hc]; exact List.mem_cons_self _ _)
    have hrest : ∀ v', Op.set k v' ∉ rest := fun v' hc => h v' (List.mem_cons_of_mem _ hc)
    exact ih (KeyFree_applyOp hs ho) hrest

theorem KeyFree_runOps (k : String) (ops : List Op)
    (h : ∀ v', Op.set k v' ∉ ops) : KeyFree k (runOps ops) :=
  KeyFree_foldl (KeyFree_init k) ops h

/-- C6: in every reachable state, `get(k)` immediately after `set(k, v)`
returns `v`; `get(k)` after `unset(k)` returns the string `"NULL"`; and if no
`set` of `k` ever ran, `get(k)` returns `"NULL"`. -/
theorem C6_get_behaviour (ops : List Op) (k v : String) :
    ((runOps ops).set k v).get k = v
  ∧ ((runOps ops).unset k).get k = "NULL"
  ∧ ((∀ v', Op.set k v' ∉ ops) → (runOps ops).get k = "NULL") := by
  refine ⟨?_, ?_, ?_⟩
  · simp [KVStore.get, set_data, lookupKV_kvUpsert_self]
  · rcases hl : lookupKV k (runOps ops).data with _ | old
    · rw [unset_of_none hl]
      simp [KVStore.get, hl]
    · have hnd := (Wf_runOps ops).1.nodupData
      simp [KVStore.get, unset_data_of_some hl, lookupKV_kvErase_self _ hnd]
  · intro h
    have hfree := (KeyFree_runOps k ops h).1
    simp [KVStore.get, hfree]

/-- Witness for C6 with the empty history and a fresh key. -/
theorem C6_get_behaviour_witness :
    ((runOps []).set "a" "b").get "a" = "b"
  ∧ ((runOps []).unset "a").get "a" = "NULL"
  ∧ (runOps []).get "a" = "NULL" := by
  obtain ⟨h1, h2, h3⟩ := C6_get_behaviour [] "a" "b"
  exact ⟨h1, h2, h3 (fun v' hc => by cases hc)⟩

/-! ## C2: the primary mapping / reverse index invariant -/

theorem Wf_applyMuts {s : KVStore} (h : s.Wf) (muts : List Mut) :
    (applyMuts s muts).Wf := by
  induction muts generalizing s with
  | nil => exact h
  | cons m rest ih =>
    simp only [applyMuts, List.foldl_cons]
    cases m with
    | set k v => exact ih (Wf_set h k v)
    | unset k => exact ih (Wf_unset h k)

/-- C2: after any sequence of `set`/`unset` calls on the empty store, the key
set of the Primary Mapping equals the union of the Reverse Index value-sets,
every key lies in the Reverse Index exactly under its current value, and no
Reverse Index entry is the empty set. -/
theorem C2_reverse_index_invariant (muts : List Mut) :
    (∀ k, k ∈ keysOf (applyMuts KVStore.init muts).data ↔
      ∃ v l, lookupKV v (applyMuts KVStore.init muts).val_keys = some l ∧ k ∈ l)
  ∧ (∀ k v, lookupKV k (applyMuts KVStore.init muts).data = some v ↔
      ∃ l, lookupKV v (applyMuts KVStore.init muts).val_keys = some l ∧ k ∈ l)
  ∧ (∀ p ∈ (applyMuts KVStore.init muts).val_keys, p.2 ≠ []) := by
  have hwf := (Wf_applyMuts Wf_init muts).1
  refine ⟨?_, ?_, ?_⟩
  · intro k
    rw [← lookupKV_isSome_iff]
    constructor
    · rintro ⟨v, hv⟩
      exact ⟨v, (hwf.rel k v).mp hv⟩
    · rintro ⟨v, l, hl, hk⟩
      exact ⟨v, (hwf.rel k v).mpr ⟨l, hl, hk⟩⟩
  · exact fun k v => hwf.rel k v
  · exact fun p hp => (hwf.entries p hp).2

/-! ## C7: counts and find report the primary mapping -/

theorem counts_correct {d : List (String × String)} {r : RevIdx}
    (h : WfPair d r) (v : String) :
    ((lookupKV v r).getD []).length = (d.filter (fun p => p.2 = v)).length := by
  have hl : ((lookupKV v r).getD []).Nodup := getD_nodup h.nodupRev h.entries
  have hm : (keysOf (d.filter (fun p => p.2 = v))).Nodup :=
    ((List.filter_sublist d).map Prod.fst).nodup h.nodupData
  have hiff : ∀ x, x ∈ (lookupKV v r).getD [] ↔
      x ∈ keysOf (d.filter (fun p => p.2 = v)) := by
    intro x
    rw [mem_getD_iff_memRev, ← h.rel x v]
    constructor
    · intro hx
      have hmem : (x, v) ∈ d := (lookupKV_eq_some_iff_mem h.nodupData).mp hx
      refine List.mem_map.mpr ⟨(x, v), ?_, rfl⟩
      rw [List.mem_filter]
      exact ⟨hmem, by simp⟩
    · intro hx
      obtain ⟨p, hp, hpx⟩ := List.mem_map.mp hx
      rw [List.mem_filter] at hp
      have hpv : p.2 = v := by simpa using hp.2
      rw [lookupKV_eq_some_iff_mem h.nodupData]
      have : p = (x, v) := by
        rcases p with ⟨a, b⟩
        simp only at hpx hpv
        rw [hpx, hpv]
      rw [← this]
      exact hp.1
  have hfin : ((lookupKV v r).getD []).toFinset =
      (keysOf (d.filter (fun p => p.2 = v))).toFinset := by
    apply Finset.ext
    intro x
    simp only [List.mem_toFinset]
    exact hiff x
  calc ((lookupKV v r).getD []).length
      = ((lookupKV v r).getD []).toFinset.card := (List.toFinset_card_of_nodup hl).symm
    _ = (keysOf (d.filter (fun p => p.2 = v))).toFinset.card := by rw [hfin]
    _ = (keysOf (d.filter (fun p => p.2 = v))).length := List.toFinset_card_of_nodup hm
    _ = (d.filter (fun p => p.2 = v)).length := by
        simp [keysOf]

theorem find_mem_iff {d : List (String × String)} {r : RevIdx}
    (h : WfPair d r) (v k : String) :
    (k ∈ (if (lookupKV v r).getD [] = [] then []
          else ((lookupKV v r).getD []).mergeSort (fun a b => decide (a ≤ b)))) ↔
      lookupKV k d = some v := by
  by_cases he : (lookupKV v r).getD [] = []
  · rw [if_pos he]
    constructor
    · intro hk
      cases hk
    · intro hk
      exfalso
      have : k ∈ (lookupKV v r).getD [] := mem_getD_iff_memRev.mpr ((h.rel k v).mp hk)
      rw [he] at this
      cases this
  · rw [if_neg he, (List.mergeSort_perm _ _).mem_iff, mem_getD_iff_memRev]
    exact (h.rel k v).symm

/-- C7: in every reachable state, `counts(v)` equals the number of keys the
Primary Mapping currently binds to `v`, and `find(v)` is exactly that key set
as a duplicate-free ascending list (empty when no key holds `v`). -/
theorem C7_counts_find_correct (ops : List Op) (v : String) :
    (runOps ops).counts v =
      ((runOps ops).data.filter (fun p => p.2 = v)).length
  ∧ List.Sorted (fun a b => a ≤ b) ((runOps ops).find v)
  ∧ ((runOps ops).find v).Nodup
  ∧ (∀ k, k ∈ (runOps ops).find v ↔ lookupKV k (runOps ops).data = some v) := by
  have hwf := (Wf_runOps ops).1
  refine ⟨counts_correct hwf v, ?_, ?_, ?_⟩
  · rw [KVStore.find]
    by_cases he : (lookupKV v (runOps ops).val_keys).getD [] = []
    · rw [if_pos he]
      exact List.sorted_nil
    · rw [if_neg he]
      exact List.sorted_mergeSort' _
  · rw [KVStore.find]
    by_cases he : (lookupKV v (runOps ops).val_keys).getD [] = []
    · rw [if_pos he]
      exact List.nodup_nil
    · rw [if_neg he]
      exact ((List.mergeSort_perm _ _).nodup_iff).mpr
        (getD_nodup hwf.nodupRev hwf.entries)
  · intro k
    rw [KVStore.find]
    exact find_mem_iff hwf v k

/-! ## C8, C9, C10 -/

/-- C8: while a transaction is active, `set(k, v)` appends `SET k v` to the
current Change Log unconditionally (the statement places no condition on the
old value, so this holds even when `v` equals the key's existing value);
`unset(k)` of an absent key is a complete no-op (in particular no log entry);
and with no active transaction the stack stays empty, so neither operation
logs anything. -/
theorem C8_change_logging (s : KVStore) (k v : String) :
    (s.tx_stack ≠ [] →
      (s.set k v).currentLog = s.currentLog.map (fun l => l ++ ["SET " ++ k ++ " " ++ v]))
  ∧ (lookupKV k s.data = none → s.unset k = s)
  ∧ (s.tx_stack = [] → (s.set k v).tx_stack = [] ∧ (s.unset k).tx_stack = []) := by
  rcases s with ⟨d, r, stk⟩
  refine ⟨?_, fun h => unset_of_none h, ?_⟩
  · intro h
    cases stk with
    | nil => exact absurd rfl h
    | cons f rest => rfl
  · intro h
    simp only at h
    subst h
    constructor
    · rfl
    · rcases hl : lookupKV k d with _ | old
      · rw [unset_of_none hl]
      · simp only [KVStore.unset, hl]
        rfl

/-- Witness for C8: one frame open — `set` appends to its log; `unset` of an
absent key is a no-op; with no frame, both leave the stack empty. -/
theorem C8_change_logging_witness :
    ((KVStore.init.begin).set "a" "b").currentLog =
      (KVStore.init.begin).currentLog.map (fun l => l ++ ["SET " ++ "a" ++ " " ++ "b"])
  ∧ (KVStore.init.begin).unset "z" = KVStore.init.begin
  ∧ ((KVStore.init.set "a" "b").tx_stack = [] ∧ (KVStore.init.unset "a").tx_stack = []) := by
  refine ⟨(C8_change_logging (KVStore.init.begin) "a" "b").1 ?_,
          (C8_change_logging (KVStore.init.begin) "z" "b").2.1 ?_,
          (C8_change_logging KVStore.init "a" "b").2.2 rfl⟩
  · decide
  · decide

/-- C9: `commit()` on a non-empty stack returns `True` and leaves the Primary
Mapping and Reverse Index exactly unchanged — hence every `get`/`counts`/`find`
result is identical — and its only state effect is popping the top frame,
which re-points the derived active logger at the new top frame's log (or
none). -/
theorem C9_commit_pops_only (s : KVStore) (h : s.tx_stack ≠ []) :
    (s.commit).1 = true
  ∧ (s.commit).2.2.data = s.data
  ∧ (s.commit).2.2.val_keys = s.val_keys
  ∧ (∀ k, (s.commit).2.2.get k = s.get k)
  ∧ (∀ v, (s.commit).2.2.counts v = s.counts v)
  ∧ (∀ v, (s.commit).2.2.find v = s.find v)
  ∧ (s.commit).2.2.tx_stack = s.tx_stack.tail
  ∧ (s.commit).2.2.currentLog =
      s.tx_stack.tail.head?.map (fun f => f.logger.changes) := by
  rcases s with ⟨d, r, stk⟩
  cases stk with
  | nil => exact absurd rfl h
  | cons f rest =>
    exact ⟨rfl, rfl, rfl, fun k => rfl, fun v => rfl, fun v => rfl, rfl, rfl⟩

/-- Witness for C9 on a store with one open transaction. -/
theorem C9_commit_pops_only_witness :
    ((KVStore.init.begin).commit).1 = true
  ∧ ((KVStore.init.begin).commit).2.2.data = (KVStore.init.begin).data
  ∧ ((KVStore.init.begin).commit).2.2.val_keys = (KVStore.init.begin).val_keys
  ∧ ((KVStore.init.begin).commit).2.2.get "a" = (KVStore.init.begin).get "a"
  ∧ ((KVStore.init.begin).commit).2.2.counts "b" = (KVStore.init.begin).counts "b"
  ∧ ((KVStore.init.begin).commit).2.2.find "b" = (KVStore.init.begin).find "b"
  ∧ ((KVStore.init.begin).commit).2.2.tx_stack = (KVStore.init.begin).tx_stack.tail
  ∧ ((KVStore.init.begin).commit).2.2.currentLog =
      (KVStore.init.begin).tx_stack.tail.head?.map (fun f => f.logger.changes) := by
  obtain ⟨h1, h2, h3, h4, h5, h6, h7, h8⟩ :=
    C9_commit_pops_only (KVStore.init.begin) (by decide)
  exact ⟨h1, h2, h3, h4 "a", h5 "b", h6 "b", h7, h8⟩

/-- C10: after `set(k, "NULL")`, `get(k)` returns `"NULL"` — exactly the
sentinel returned for a key that is absent (as on the fresh store) — while
`counts("NULL")` is at least 1 and `find("NULL")` contains `k`, so the key is
still reported as present. -/
theorem C10_null_sentinel_ambiguity (s : KVStore) (k : String) :
    (s.set k "NULL").get k = "NULL"
  ∧ KVStore.init.get k = "NULL"
  ∧ 1 ≤ (s.set k "NULL").counts "NULL"
  ∧ k ∈ (s.set k "NULL").find "NULL" := by
  have hmem : k ∈ (lookupKV "NULL" (s.set k "NULL").val_keys).getD [] := by
    rw [set_val_keys]
    exact mem_getD_iff_memRev.mpr (memRev_revAdd_self.mpr (Or.inl rfl))
  refine ⟨?_, rfl, ?_, ?_⟩
  · simp [KVStore.get, set_data, lookupKV_kvUpsert_self]
  · exact List.length_pos_of_mem hmem
  · rw [KVStore.find]
    have hne : (lookupKV "NULL" (s.set k "NULL").val_keys).getD [] ≠ [] :=
      List.ne_nil_of_mem hmem
    rw [if_neg hne, (List.mergeSort_perm _ _).mem_iff]
    exact hmem

/-! ## C5: argument-count handling in the dispatcher -/

/-- Counterexample to C5 as stated: `UNSET a b` has the wrong argument count
(3 tokens instead of 2) for the UNSET verb, yet processing it emits no output
at all — in particular no `INVALID ...` message — and changes the Primary
Mapping (the extra argument is silently ignored and `unset("a")` runs). -/
theorem C5_counterexample_unset_extra_arg :
    ((KVStore.init.set "a" "foo").process_command ["UNSET", "a", "b"]).2.1 = []
  ∧ ((KVStore.init.set "a" "foo").process_command ["UNSET", "a", "b"]).1.data ≠
      (KVStore.init.set "a" "foo").data := by
  decide

/-- C5 amended: only `SET` and `FIND` validate their argument count, printing
`INVALID SET COMMAND` / `INVALID FIND COMMAND` and leaving the whole state
unchanged.  `GET`, `UNSET` and `COUNTS` given no argument raise `IndexError`,
caught by the dispatcher and printed as `ERROR: list index out of range` with
the state unchanged; given extra arguments they ignore the extras and act on
the first argument — so `UNSET k extra` mutates state with no error
message. -/
theorem C5_amended_argument_validation (s : KVStore) (w : String) (args : List String) :
    (pyUpper w = "SET" → args.length ≠ 2 →
      s.process_command (w :: args) = (s, [Out.line "INVALID SET COMMAND"], false))
  ∧ (pyUpper w = "FIND" → args.length ≠ 1 →
      s.process_command (w :: args) = (s, [Out.line "INVALID FIND COMMAND"], false))
  ∧ ((pyUpper w = "GET" ∨ pyUpper w = "UNSET" ∨ pyUpper w = "COUNTS") →
      s.process_command [w] = (s, [Out.line "ERROR: list index out of range"], false))
  ∧ (pyUpper w = "GET" → ∀ k extra,
      s.process_command (w :: k :: extra) = (s, [Out.line (s.get k)], false))
  ∧ (pyUpper w = "UNSET" → ∀ k extra,
      s.process_command (w :: k :: extra) = (s.unset k, [], false))
  ∧ (pyUpper w = "COUNTS" → ∀ x extra,
      s.process_command (w :: x :: extra) = (s, [Out.line (toString (s.counts x))], false)) := by
  refine ⟨?_, ?_, ?_, ?_, ?_, ?_⟩
  · intro h hlen
    rcases args with _ | ⟨a, _ | ⟨b, _ | ⟨c, rest⟩⟩⟩
    · simp [KVStore.process_command, h]
    · simp [KVStore.process_command, h]
    · exact absurd rfl hlen
    · simp [KVStore.process_command, h]
  · intro h hlen
    rcases args with _ | ⟨a, _ | ⟨b, rest⟩⟩
    · simp [KVStore.process_command, h]
    · exact absurd rfl hlen
    · simp [KVStore.process_command, h]
  · rintro (h | h | h) <;> simp [KVStore.process_command, h]
  · intro h k extra
    simp [KVStore.process_command, h]
  · intro h k extra
    simp [KVStore.process_command, h]
  · intro h x extra
    simp [KVStore.process_command, h]

/-- Witness for the amended C5, exercising each verb on the fresh store. -/
theorem C5_amended_argument_validation_witness :
    KVStore.init.process_command ["SET", "a"] =
      (KVStore.init, [Out.line "INVALID SET COMMAND"], false)
  ∧ KVStore.init.process_command ["FIND", "a", "b"] =
      (KVStore.init, [Out.line "INVALID FIND COMMAND"], false)
  ∧ KVStore.init.process_command ["GET"] =
      (KVStore.init, [Out.line "ERROR: list index out of range"], false)
  ∧ KVStore.init.process_command ["GET", "a", "b"] =
      (KVStore.init, [Out.line (KVStore.init.get "a")], false)
  ∧ KVStore.init.process_command ["UNSET", "a", "b"] =
      (KVStore.init.unset "a", [], false)
  ∧ KVStore.init.process_command ["COUNTS", "a", "b"] =
      (KVStore.init, [Out.line (toString (KVStore.init.counts "a"))], false) := by
  refine ⟨(C5_amended_argument_validation KVStore.init "SET" ["a"]).1 (by decide) (by decide),
    (C5_amended_argument_validation KVStore.init "FIND" ["a", "b"]).2.1 (by decide) (by decide),
    (C5_amended_argument_validation KVStore.init "GET" []).2.2.1 (Or.inl (by decide)),
    (C5_amended_argument_validation KVStore.init "GET" []).2.2.2.1 (by decide) "a" ["b"],
    (C5_amended_argument_validation KVStore.init "UNSET" []).2.2.2.2.1 (by decide) "a" ["b"],
    (C5_amended_argument_validation KVStore.init "COUNTS" []).2.2.2.2.2 (by decide) "a" ["b"]⟩
